import Mathlib

/-!
# Verification of the oprtc_calculator reward-accounting engine

Shallow embedding of `src/state.rs`: a share-based staking vault that replays
deposit / withdraw / transfer events through a reward-per-share accounting
model and answers point-in-time reward queries.

Modelling conventions:

* `U256` / `U64` quantities are modelled as unbounded natural numbers.
* The `uint` arithmetic used by the source panics on subtraction underflow and
  on division by zero; those aborts are modelled explicitly with `usub` /
  `udiv` returning `Except Err`.  (Addition and multiplication overflow also
  panic in the source, at magnitudes of order `2^256`; values are modelled as
  unbounded naturals, which is exact below that bound.)
* A Rust panic (`expect`, underflow, division by zero) is an `Except.error`;
  the replay loop propagates it, matching the abort of the process.
* The `HashMap<Address, UserRecord>` is modelled as an association list.
  `insertRec` replaces the binding in place, `lookupRec` finds the first
  binding, and list order stands for the map's (unspecified) iteration order,
  which is what `get_user_rewards` and `get_all_rewards` traverse.
* Addresses are modelled as naturals (only equality of addresses is used).
-/

/-- `BLOCK_CONTRACT_DEPLOYED` from `state.rs`. -/
def BLOCK_CONTRACT_DEPLOYED : Nat := 17564663

/-- `parse_ether("1")`: the fixed-point scaling constant (1e18). -/
def PRECISION : Nat := 10 ^ 18

/-- `rewards_per_block` in `state.rs`: `parse_ether("1")`, i.e. one base unit
(1e18 wei-scale) issued per block. -/
def rewards_per_block : Nat := 10 ^ 18

/-- The aborts (Rust panics) the engine can raise. -/
inductive Err where
  /-- `U256`/`U64` subtraction underflow panic. -/
  | underflow
  /-- `U256` division by zero panic. -/
  | divisionByZero
  /-- the `.expect("user should exist")` panic in `process_withdraw`. -/
  | userShouldExist
deriving DecidableEq

/-- Checked subtraction: Rust `uint` `-` panics on underflow. -/
def usub (a b : Nat) : Except Err Nat :=
  if b ≤ a then .ok (a - b) else .error .underflow

/-- Checked division: Rust `uint` `/` panics on a zero divisor. -/
def udiv (a b : Nat) : Except Err Nat :=
  if b = 0 then .error .divisionByZero else .ok (a / b)

/-- `Deposit` event (`state.rs`). -/
structure Deposit where
  address : Nat
  shares : Nat
  block_number : Nat
deriving DecidableEq

/-- `Withdraw` event (`state.rs`). -/
structure Withdraw where
  address : Nat
  shares : Nat
  block_number : Nat
deriving DecidableEq

/-- `Transfer` event (`state.rs`).  Rust field `from` is `from_addr` here
(`from` is a Lean keyword); `to` is `to_addr` for symmetry. -/
structure Transfer where
  from_addr : Nat
  to_addr : Nat
  shares : Nat
  block_number : Nat
deriving DecidableEq

/-- `Event` (`state.rs`): tagged union of the three event kinds. -/
inductive Event where
  | deposit : Deposit → Event
  | withdrawal : Withdraw → Event
  | transfer : Transfer → Event
deriving DecidableEq

/-- `UserRecord` (`state.rs`). -/
structure UserRecord where
  shares_staked : Nat
  rewards_per_share_snapshot : Nat
  rewards_accumulated : Nat
deriving DecidableEq

/-- First binding for key `a` in the association list — `HashMap::get`. -/
def lookupRec (a : Nat) : List (Nat × UserRecord) → Option UserRecord
  | [] => none
  | (k, v) :: t => if k = a then some v else lookupRec a t

/-- Replace (or append) the binding for key `a` — `HashMap::insert`. -/
def insertRec (a : Nat) (v : UserRecord) : List (Nat × UserRecord) → List (Nat × UserRecord)
  | [] => [(a, v)]
  | (k, w) :: t => if k = a then (a, v) :: t else (k, w) :: insertRec a v t

/-- `GlobalState` (`state.rs`).  `user_records` is the association-list model
of the `HashMap`. -/
structure GlobalState where
  user_records : List (Nat × UserRecord)
  total_shares_staked : Nat
  total_rewards_per_share : Nat
  last_accounted_block : Nat
deriving DecidableEq

/-- `GlobalState::new()`: zero totals, empty records, accumulator anchored at
the deployment block. -/
def GlobalState.new : GlobalState :=
  { user_records := []
    total_shares_staked := 0
    total_rewards_per_share := 0
    last_accounted_block := BLOCK_CONTRACT_DEPLOYED }

/-- Sum of `shares_staked` over all records (specification-side quantity for
the conservation invariant). -/
def sumShares (l : List (Nat × UserRecord)) : Nat :=
  (l.map (fun p => p.2.shares_staked)).sum

/-- `GlobalState::distribute_rewards` (`state.rs` lines 195–210): advance the
accumulator to `block_number`; no-op when the block is not ahead or the total
stake is zero. -/
def distribute_rewards (s : GlobalState) (block_number : Nat) : Except Err GlobalState :=
  if block_number ≤ s.last_accounted_block ∨ s.total_shares_staked = 0 then
    .ok s
  else
    match usub block_number s.last_accounted_block with
    | .error e => .error e
    | .ok blocks_transcurred =>
      match udiv (blocks_transcurred * rewards_per_block * PRECISION) s.total_shares_staked with
      | .error e => .error e
      | .ok pending_rewards_per_share =>
        .ok { s with
              last_accounted_block := block_number
              total_rewards_per_share := s.total_rewards_per_share + pending_rewards_per_share }

/-- `GlobalState::process_deposit` (`state.rs` lines 73–99). -/
def process_deposit (s : GlobalState) (d : Deposit) : Except Err GlobalState :=
  match distribute_rewards s d.block_number with
  | .error e => .error e
  | .ok s1 =>
    match lookupRec d.address s1.user_records with
    | some user =>
      match usub s1.total_rewards_per_share user.rewards_per_share_snapshot with
      | .error e => .error e
      | .ok diff =>
        let accrued_rewards := diff * user.shares_staked
        let user_record : UserRecord :=
          { shares_staked := user.shares_staked + d.shares
            rewards_per_share_snapshot := s1.total_rewards_per_share
            rewards_accumulated := user.rewards_accumulated + accrued_rewards }
        .ok { s1 with
              user_records := insertRec d.address user_record s1.user_records
              total_shares_staked := s1.total_shares_staked + d.shares }
    | none =>
      .ok { s1 with
            user_records := insertRec d.address
              { shares_staked := d.shares
                rewards_per_share_snapshot := s1.total_rewards_per_share
                rewards_accumulated := 0 } s1.user_records
            total_shares_staked := s1.total_shares_staked + d.shares }

/-- `GlobalState::process_withdraw` (`state.rs` lines 101–118).  The
`.expect`, the record-share underflow and the total-share underflow are the
three abort points, in source order. -/
def process_withdraw (s : GlobalState) (w : Withdraw) : Except Err GlobalState :=
  match distribute_rewards s w.block_number with
  | .error e => .error e
  | .ok s1 =>
    match lookupRec w.address s1.user_records with
    | none => .error .userShouldExist
    | some user =>
      match usub s1.total_rewards_per_share user.rewards_per_share_snapshot with
      | .error e => .error e
      | .ok diff =>
        let rewards_accumulated := diff * user.shares_staked
        match usub user.shares_staked w.shares with
        | .error e => .error e
        | .ok new_shares =>
          match usub s1.total_shares_staked w.shares with
          | .error e => .error e
          | .ok new_total =>
            .ok { s1 with
                  user_records := insertRec w.address
                    { shares_staked := new_shares
                      rewards_per_share_snapshot := s1.total_rewards_per_share
                      rewards_accumulated := user.rewards_accumulated + rewards_accumulated }
                    s1.user_records
                  total_shares_staked := new_total }

/-- `GlobalState::process_transfer` (`state.rs` lines 120–135): decompose
into a withdraw from `from_addr` then a deposit to `to_addr`, same block. -/
def process_transfer (s : GlobalState) (t : Transfer) : Except Err GlobalState :=
  match process_withdraw s
      { address := t.from_addr, shares := t.shares, block_number := t.block_number } with
  | .error e => .error e
  | .ok s1 =>
    process_deposit s1
      { address := t.to_addr, shares := t.shares, block_number := t.block_number }

/-- Dispatch of one event, as in the `match` of `process_events`. -/
def process_event (s : GlobalState) : Event → Except Err GlobalState
  | .deposit d => process_deposit s d
  | .withdrawal w => process_withdraw s w
  | .transfer t => process_transfer s t

/-- `GlobalState::process_events` (`state.rs` lines 63–71): fold the events in
order; a panic (error) aborts the replay at that event. -/
def process_events (s : GlobalState) : List Event → Except Err GlobalState
  | [] => .ok s
  | e :: rest =>
    match process_event s e with
    | .error err => .error err
    | .ok s1 => process_events s1 rest

/-- `GlobalState::preview_user_rewards` (`state.rs` lines 137–168): read-only
reward projection for one account at `block_number`. -/
def preview_user_rewards (s : GlobalState) (user : Nat) (block_number : Nat) : Except Err Nat :=
  match lookupRec user s.user_records with
  | none => .ok 0
  | some user_record =>
    if s.total_shares_staked = 0 then
      match usub s.total_rewards_per_share user_record.rewards_per_share_snapshot with
      | .error e => .error e
      | .ok diff =>
        let accrued_rewards := diff * user_record.shares_staked
        let unclaimed_rewards := user_record.rewards_accumulated
        udiv (accrued_rewards + unclaimed_rewards) PRECISION
    else
      match usub block_number s.last_accounted_block with
      | .error e => .error e
      | .ok elapsed =>
        let pending_rewards := elapsed * rewards_per_block
        match udiv (pending_rewards * PRECISION) s.total_shares_staked with
        | .error e => .error e
        | .ok pending_rewards_per_share_staked =>
          match usub (s.total_rewards_per_share + pending_rewards_per_share_staked)
              user_record.rewards_per_share_snapshot with
          | .error e => .error e
          | .ok diff =>
            let user_rewards := diff * user_record.shares_staked
            udiv (user_rewards + user_record.rewards_accumulated) PRECISION

/-- The per-key traversal of `get_all_rewards`: sum the previews over the
record list in iteration order. -/
def sum_rewards (s : GlobalState) (block_number : Nat) :
    List (Nat × UserRecord) → Except Err Nat
  | [] => .ok 0
  | (a, _) :: t =>
    match preview_user_rewards s a block_number with
    | .error e => .error e
    | .ok r =>
      match sum_rewards s block_number t with
      | .error e => .error e
      | .ok rest => .ok (r + rest)

/-- `GlobalState::get_all_rewards` (`state.rs` lines 170–177). -/
def get_all_rewards (s : GlobalState) (block_number : Nat) : Except Err Nat :=
  sum_rewards s block_number s.user_records

/-- The `.map` over `user_records.keys()` in `get_user_rewards`: preview each
account in record-iteration order. -/
def preview_all (s : GlobalState) (block_number : Nat) :
    List (Nat × UserRecord) → Except Err (List (Nat × Nat))
  | [] => .ok []
  | (a, _) :: t =>
    match preview_user_rewards s a block_number with
    | .error e => .error e
    | .ok r =>
      match preview_all s block_number t with
      | .error e => .error e
      | .ok rest => .ok ((a, r) :: rest)

/-- Ordered insertion for the descending stable sort: an element is placed
before the first strictly smaller reward, after equal rewards. -/
def insertDesc (p : Nat × Nat) : List (Nat × Nat) → List (Nat × Nat)
  | [] => [p]
  | q :: t => if q.2 ≤ p.2 then p :: q :: t else q :: insertDesc p t

/-- Stable sort by reward descending — the behaviour of Rust's stable
`sort_by_key(|&(_, num)| Reverse(num))`: ties keep their pre-sort order. -/
def sortDesc : List (Nat × Nat) → List (Nat × Nat)
  | [] => []
  | p :: t => insertDesc p (sortDesc t)

/-- `GlobalState::get_user_rewards` (`state.rs` lines 179–193): preview every
account, drop zero rewards, stable-sort by reward descending. -/
def get_user_rewards (s : GlobalState) (block_number : Nat) :
    Except Err (List (Nat × Nat)) :=
  match preview_all s block_number s.user_records with
  | .error e => .error e
  | .ok records => .ok (sortDesc (records.filter (fun p => p.2 ≠ 0)))

/-- The accounts an event names: the deposit / withdraw account, or the two
ends of a transfer. -/
def event_accounts : Event → List Nat
  | .deposit d => [d.address]
  | .withdrawal w => [w.address]
  | .transfer t => [t.from_addr, t.to_addr]

/-- The recorded-snapshot invariant of §3 of the specification: every
record's `rewards_per_share_snapshot` is at most the current global
`total_rewards_per_share`.  Holds in every replay-reachable state (proved
below) and is the hypothesis under which the withdraw / preview paths are
characterised. -/
def snapshotInv (s : GlobalState) : Prop :=
  ∀ a u, lookupRec a s.user_records = some u →
    u.rewards_per_share_snapshot ≤ s.total_rewards_per_share

/-- A state with two accounts holding equal stakes, records in ascending key
order.  Stands for one possible iteration order of the `HashMap`. -/
def tieStateA : GlobalState :=
  { user_records := [(1, ⟨1, 0, 0⟩), (2, ⟨1, 0, 0⟩)]
    total_shares_staked := 2
    total_rewards_per_share := 0
    last_accounted_block := 0 }

/-- The same map content as `tieStateA` — identical bindings, totals and
accumulator — but with the records in the other iteration order. -/
def tieStateB : GlobalState :=
  { user_records := [(2, ⟨1, 0, 0⟩), (1, ⟨1, 0, 0⟩)]
    total_shares_staked := 2
    total_rewards_per_share := 0
    last_accounted_block := 0 }

/-! ## Basic lemmas about the checked arithmetic and the record list -/

theorem usub_ok_of_le {a b : Nat} (h : b ≤ a) : usub a b = .ok (a - b) := by
  simp [usub, h]

theorem usub_ok_iff {a b c : Nat} : usub a b = .ok c ↔ b ≤ a ∧ c = a - b := by
  unfold usub
  split <;> simp_all [eq_comm]

theorem usub_error_iff {a b : Nat} {e : Err} : usub a b = .error e ↔ a < b ∧ e = .underflow := by
  unfold usub
  split <;> simp_all [eq_comm]

theorem udiv_ok {a b : Nat} (h : b ≠ 0) : udiv a b = .ok (a / b) := by
  simp [udiv, h]

theorem sumShares_cons (p : Nat × UserRecord) (t : List (Nat × UserRecord)) :
    sumShares (p :: t) = p.2.shares_staked + sumShares t := by
  simp [sumShares]

theorem lookupRec_insertRec_self (a : Nat) (v : UserRecord) (l : List (Nat × UserRecord)) :
    lookupRec a (insertRec a v l) = some v := by
  induction l with
  | nil => simp [insertRec, lookupRec]
  | cons p t ih =>
    obtain ⟨k, w⟩ := p
    by_cases h : k = a
    · simp [insertRec, lookupRec, h]
    · simp [insertRec, lookupRec, h, ih]

theorem lookupRec_insertRec_ne {a b : Nat} (h : b ≠ a) (v : UserRecord)
    (l : List (Nat × UserRecord)) :
    lookupRec b (insertRec a v l) = lookupRec b l := by
  have hab : ¬ a = b := fun hh => h hh.symm
  induction l with
  | nil => simp [insertRec, lookupRec, hab]
  | cons p t ih =>
    obtain ⟨k, w⟩ := p
    by_cases hk : k = a
    · subst hk
      simp [insertRec, lookupRec, hab]
    · by_cases hkb : k = b <;> simp [insertRec, lookupRec, hk, hkb, hab, h, ih]

theorem sumShares_insertRec_none {a : Nat} {l : List (Nat × UserRecord)}
    (h : lookupRec a l = none) (v : UserRecord) :
    sumShares (insertRec a v l) = sumShares l + v.shares_staked := by
  induction l with
  | nil => simp [insertRec, sumShares]
  | cons p t ih =>
    obtain ⟨k, w⟩ := p
    by_cases hk : k = a
    · simp [lookupRec, hk] at h
    · simp only [lookupRec, hk, if_false] at h
      simp only [insertRec, hk, if_false, sumShares_cons, ih h]
      omega

theorem sumShares_insertRec_some {a : Nat} {u : UserRecord} {l : List (Nat × UserRecord)}
    (h : lookupRec a l = some u) (v : UserRecord) :
    sumShares (insertRec a v l) + u.shares_staked = sumShares l + v.shares_staked := by
  induction l with
  | nil => simp [lookupRec] at h
  | cons p t ih =>
    obtain ⟨k, w⟩ := p
    by_cases hk : k = a
    · simp only [lookupRec, hk, if_true, Option.some_inj] at h
      subst h
      simp only [insertRec, hk, if_true, sumShares_cons]
      omega
    · simp only [lookupRec, hk, if_false] at h
      simp only [insertRec, hk, if_false, sumShares_cons]
      have := ih h
      omega

/-! ## Shape lemmas for the engine operations -/

theorem distribute_rewards_noop {s : GlobalState} {b : Nat}
    (h : b ≤ s.last_accounted_block ∨ s.total_shares_staked = 0) :
    distribute_rewards s b = .ok s := by
  unfold distribute_rewards
  rw [if_pos h]

theorem distribute_rewards_advance {s : GlobalState} {b : Nat}
    (h1 : s.last_accounted_block < b) (h2 : s.total_shares_staked ≠ 0) :
    distribute_rewards s b = .ok
      { s with
        last_accounted_block := b
        total_rewards_per_share := s.total_rewards_per_share +
          (b - s.last_accounted_block) * rewards_per_block * PRECISION /
            s.total_shares_staked } := by
  have hcond : ¬ (b ≤ s.last_accounted_block ∨ s.total_shares_staked = 0) := by
    push_neg
    exact ⟨h1, h2⟩
  simp [distribute_rewards, hcond, usub_ok_of_le (Nat.le_of_lt h1), udiv_ok h2]

theorem distribute_rewards_shape (s : GlobalState) (b : Nat) :
    ∃ s1, distribute_rewards s b = .ok s1 ∧
      s1.user_records = s.user_records ∧
      s1.total_shares_staked = s.total_shares_staked ∧
      s.total_rewards_per_share ≤ s1.total_rewards_per_share ∧
      s.last_accounted_block ≤ s1.last_accounted_block := by
  by_cases h : b ≤ s.last_accounted_block ∨ s.total_shares_staked = 0
  · exact ⟨s, distribute_rewards_noop h, rfl, rfl, le_refl _, le_refl _⟩
  · push_neg at h
    exact ⟨_, distribute_rewards_advance h.1 h.2, rfl, rfl,
      Nat.le_add_right _ _, Nat.le_of_lt h.1⟩

/-- A successful deposit: the distributed intermediate state and the explicit
result, in the record-absent and record-present cases. -/
theorem process_deposit_ok {s : GlobalState} {d : Deposit} {s' : GlobalState}
    (h : process_deposit s d = .ok s') :
    ∃ s1, distribute_rewards s d.block_number = .ok s1 ∧
      s1.user_records = s.user_records ∧
      s1.total_shares_staked = s.total_shares_staked ∧
      s.total_rewards_per_share ≤ s1.total_rewards_per_share ∧
      s.last_accounted_block ≤ s1.last_accounted_block ∧
      ((lookupRec d.address s.user_records = none ∧
        s' = { s1 with
               user_records := insertRec d.address
                 ⟨d.shares, s1.total_rewards_per_share, 0⟩ s1.user_records
               total_shares_staked := s1.total_shares_staked + d.shares }) ∨
       (∃ u, lookupRec d.address s.user_records = some u ∧
         u.rewards_per_share_snapshot ≤ s1.total_rewards_per_share ∧
         s' = { s1 with
                user_records := insertRec d.address
                  ⟨u.shares_staked + d.shares, s1.total_rewards_per_share,
                   u.rewards_accumulated +
                     (s1.total_rewards_per_share - u.rewards_per_share_snapshot) *
                       u.shares_staked⟩ s1.user_records
                total_shares_staked := s1.total_shares_staked + d.shares })) := by
  obtain ⟨s1, hd, hrec, htot, htrps, hlast⟩ := distribute_rewards_shape s d.block_number
  refine ⟨s1, hd, hrec, htot, htrps, hlast, ?_⟩
  unfold process_deposit at h
  simp only [hd] at h
  cases hl : lookupRec d.address s1.user_records with
  | none =>
    simp only [hl, Except.ok.injEq] at h
    left
    refine ⟨by rw [← hrec]; exact hl, h.symm⟩
  | some u =>
    simp only [hl] at h
    cases hu : usub s1.total_rewards_per_share u.rewards_per_share_snapshot with
    | error e => simp [hu] at h
    | ok diff =>
      simp only [hu, Except.ok.injEq] at h
      obtain ⟨hle, hdiff⟩ := usub_ok_iff.mp hu
      right
      exact ⟨u, by rw [← hrec]; exact hl, hle, by rw [← h, hdiff]⟩

/-- A successful withdrawal: the distributed intermediate state, the record
that was found, the non-underflow bounds, and the explicit result. -/
theorem process_withdraw_ok {s : GlobalState} {w : Withdraw} {s' : GlobalState}
    (h : process_withdraw s w = .ok s') :
    ∃ s1 u, distribute_rewards s w.block_number = .ok s1 ∧
      s1.user_records = s.user_records ∧
      s1.total_shares_staked = s.total_shares_staked ∧
      s.total_rewards_per_share ≤ s1.total_rewards_per_share ∧
      s.last_accounted_block ≤ s1.last_accounted_block ∧
      lookupRec w.address s.user_records = some u ∧
      u.rewards_per_share_snapshot ≤ s1.total_rewards_per_share ∧
      w.shares ≤ u.shares_staked ∧
      w.shares ≤ s.total_shares_staked ∧
      s' = { s1 with
             user_records := insertRec w.address
               ⟨u.shares_staked - w.shares, s1.total_rewards_per_share,
                u.rewards_accumulated +
                  (s1.total_rewards_per_share - u.rewards_per_share_snapshot) *
                    u.shares_staked⟩ s1.user_records
             total_shares_staked := s1.total_shares_staked - w.shares } := by
  obtain ⟨s1, hd, hrec, htot, htrps, hlast⟩ := distribute_rewards_shape s w.block_number
  unfold process_withdraw at h
  simp only [hd] at h
  cases hl : lookupRec w.address s1.user_records with
  | none => simp [hl] at h
  | some u =>
    simp only [hl] at h
    cases hu : usub s1.total_rewards_per_share u.rewards_per_share_snapshot with
    | error e => simp [hu] at h
    | ok diff =>
      simp only [hu] at h
      cases hsh : usub u.shares_staked w.shares with
      | error e => simp [hsh] at h
      | ok new_shares =>
        simp only [hsh] at h
        cases hto : usub s1.total_shares_staked w.shares with
        | error e => simp [hto] at h
        | ok new_total =>
          simp only [hto, Except.ok.injEq] at h
          obtain ⟨h1, hd1⟩ := usub_ok_iff.mp hu
          obtain ⟨h2, hd2⟩ := usub_ok_iff.mp hsh
          obtain ⟨h3, hd3⟩ := usub_ok_iff.mp hto
          refine ⟨s1, u, hd, hrec, htot, htrps, hlast,
            by rw [← hrec]; exact hl, h1, h2, by rw [← htot]; exact h3, ?_⟩
          rw [← h, hd1, hd2, hd3]

/-! ## Conservation of staked shares -/

theorem process_deposit_conserves {s : GlobalState} {d : Deposit} {s' : GlobalState}
    (h : process_deposit s d = .ok s')
    (hs : s.total_shares_staked = sumShares s.user_records) :
    s'.total_shares_staked = sumShares s'.user_records := by
  obtain ⟨s1, _, hrec, htot, _, _, hcase⟩ := process_deposit_ok h
  cases hcase with
  | inl hc =>
    obtain ⟨hnone, hs'⟩ := hc
    subst hs'
    have hn : lookupRec d.address s1.user_records = none := by rw [hrec]; exact hnone
    dsimp only
    rw [sumShares_insertRec_none hn, htot, hs, hrec]
  | inr hc =>
    obtain ⟨u, hsome, _, hs'⟩ := hc
    subst hs'
    have hsm : lookupRec d.address s1.user_records = some u := by rw [hrec]; exact hsome
    have hsum := sumShares_insertRec_some hsm
      (⟨u.shares_staked + d.shares, s1.total_rewards_per_share,
        u.rewards_accumulated +
          (s1.total_rewards_per_share - u.rewards_per_share_snapshot) *
            u.shares_staked⟩ : UserRecord)
    have hrs : sumShares s1.user_records = sumShares s.user_records := by rw [hrec]
    dsimp only
    dsimp only at hsum
    omega

theorem process_withdraw_conserves {s : GlobalState} {w : Withdraw} {s' : GlobalState}
    (h : process_withdraw s w = .ok s')
    (hs : s.total_shares_staked = sumShares s.user_records) :
    s'.total_shares_staked = sumShares s'.user_records := by
  obtain ⟨s1, u, _, hrec, htot, _, _, hsome, _, hsh, hto, hs'⟩ := process_withdraw_ok h
  subst hs'
  have hsm : lookupRec w.address s1.user_records = some u := by rw [hrec]; exact hsome
  have hsum := sumShares_insertRec_some hsm
    (⟨u.shares_staked - w.shares, s1.total_rewards_per_share,
      u.rewards_accumulated +
        (s1.total_rewards_per_share - u.rewards_per_share_snapshot) *
          u.shares_staked⟩ : UserRecord)
  have hrs : sumShares s1.user_records = sumShares s.user_records := by rw [hrec]
  dsimp only
  dsimp only at hsum
  omega

theorem process_event_conserves {s : GlobalState} {e : Event} {s' : GlobalState}
    (h : process_event s e = .ok s')
    (hs : s.total_shares_staked = sumShares s.user_records) :
    s'.total_shares_staked = sumShares s'.user_records := by
  cases e with
  | deposit d => exact process_deposit_conserves h hs
  | withdrawal w => exact process_withdraw_conserves h hs
  | transfer t =>
    unfold process_event process_transfer at h
    cases hw : process_withdraw s
        { address := t.from_addr, shares := t.shares, block_number := t.block_number } with
    | error e => simp [hw] at h
    | ok s1 =>
      simp only [hw] at h
      exact process_deposit_conserves h (process_withdraw_conserves hw hs)

theorem process_events_conserves {evts : List Event} {s s' : GlobalState}
    (h : process_events s evts = .ok s')
    (hs : s.total_shares_staked = sumShares s.user_records) :
    s'.total_shares_staked = sumShares s'.user_records := by
  induction evts generalizing s with
  | nil =>
    simp only [process_events, Except.ok.injEq] at h
    rw [← h]
    exact hs
  | cons e rest ih =>
    unfold process_events at h
    cases he : process_event s e with
    | error err => simp [he] at h
    | ok s1 =>
      simp only [he] at h
      exact ih h (process_event_conserves he hs)

/-! ## Monotonicity and frame helpers -/

theorem process_deposit_mono {s : GlobalState} {d : Deposit} {s' : GlobalState}
    (h : process_deposit s d = .ok s') :
    s.total_rewards_per_share ≤ s'.total_rewards_per_share ∧
    s.last_accounted_block ≤ s'.last_accounted_block := by
  obtain ⟨s1, _, _, _, htrps, hlast, hcase⟩ := process_deposit_ok h
  cases hcase with
  | inl hc => rw [hc.2]; exact ⟨htrps, hlast⟩
  | inr hc =>
    obtain ⟨u, _, _, hs'⟩ := hc
    rw [hs']
    exact ⟨htrps, hlast⟩

theorem process_withdraw_mono {s : GlobalState} {w : Withdraw} {s' : GlobalState}
    (h : process_withdraw s w = .ok s') :
    s.total_rewards_per_share ≤ s'.total_rewards_per_share ∧
    s.last_accounted_block ≤ s'.last_accounted_block := by
  obtain ⟨s1, u, _, _, _, htrps, hlast, _, _, _, _, hs'⟩ := process_withdraw_ok h
  rw [hs']
  exact ⟨htrps, hlast⟩

theorem process_deposit_frame {s : GlobalState} {d : Deposit} {s' : GlobalState}
    (h : process_deposit s d = .ok s') {a : Nat} (ha : a ≠ d.address) :
    lookupRec a s'.user_records = lookupRec a s.user_records := by
  obtain ⟨s1, _, hrec, _, _, _, hcase⟩ := process_deposit_ok h
  cases hcase with
  | inl hc =>
    rw [hc.2]
    dsimp only
    rw [lookupRec_insertRec_ne ha, hrec]
  | inr hc =>
    obtain ⟨u, _, _, hs'⟩ := hc
    rw [hs']
    dsimp only
    rw [lookupRec_insertRec_ne ha, hrec]

theorem process_withdraw_frame {s : GlobalState} {w : Withdraw} {s' : GlobalState}
    (h : process_withdraw s w = .ok s') {a : Nat} (ha : a ≠ w.address) :
    lookupRec a s'.user_records = lookupRec a s.user_records := by
  obtain ⟨s1, u, _, hrec, _, _, _, _, _, _, _, hs'⟩ := process_withdraw_ok h
  rw [hs']
  dsimp only
  rw [lookupRec_insertRec_ne ha, hrec]

theorem usub_error_of_lt {a b : Nat} (h : a < b) : usub a b = .error .underflow := by
  unfold usub
  rw [if_neg (by omega)]

theorem process_deposit_total {s : GlobalState} {d : Deposit} {s' : GlobalState}
    (h : process_deposit s d = .ok s') :
    s'.total_shares_staked = s.total_shares_staked + d.shares := by
  obtain ⟨s1, _, _, htot, _, _, hcase⟩ := process_deposit_ok h
  cases hcase with
  | inl hc =>
    rw [hc.2]
    dsimp only
    rw [htot]
  | inr hc =>
    obtain ⟨u, _, _, hs'⟩ := hc
    rw [hs']
    dsimp only
    rw [htot]

theorem process_withdraw_total {s : GlobalState} {w : Withdraw} {s' : GlobalState}
    (h : process_withdraw s w = .ok s') :
    w.shares ≤ s.total_shares_staked ∧
    s'.total_shares_staked = s.total_shares_staked - w.shares := by
  obtain ⟨s1, u, _, _, htot, _, _, _, _, _, hto, hs'⟩ := process_withdraw_ok h
  refine ⟨hto, ?_⟩
  rw [hs']
  dsimp only
  rw [htot]

/-! ## Claim theorems -/

/-- Claim C1: for every finite sequence of events applied from the freshly
created `GlobalState` — in particular for the non-decreasing-block sequences
the sequencer supplies — every state a successful replay reaches satisfies
`total_shares_staked = Σ shares_staked` over all user records.  Since every
prefix of a successful replay is itself a successful replay of that prefix,
this covers the state after each applied event. -/
theorem conservation_of_staked_shares (evts : List Event) (s' : GlobalState)
    (h : process_events GlobalState.new evts = .ok s') :
    s'.total_shares_staked = sumShares s'.user_records :=
  process_events_conserves h rfl

theorem conservation_of_staked_shares_witness :
    process_events GlobalState.new
      [ .deposit ⟨1, 5, BLOCK_CONTRACT_DEPLOYED⟩ ] =
      .ok ⟨[(1, ⟨5, 0, 0⟩)], 5, 0, BLOCK_CONTRACT_DEPLOYED⟩ ∧
    (5 : Nat) = sumShares [(1, ⟨5, 0, 0⟩)] :=
  ⟨rfl, conservation_of_staked_shares
    [ .deposit ⟨1, 5, BLOCK_CONTRACT_DEPLOYED⟩ ]
    ⟨[(1, ⟨5, 0, 0⟩)], 5, 0, BLOCK_CONTRACT_DEPLOYED⟩ rfl⟩

/-- Claim C2: `distribute_rewards s b` is a no-op exactly when
`b ≤ last_accounted_block` or `total_shares_staked = 0`; otherwise it adds
`(b − last_accounted_block) * rewards_per_block * PRECISION /
total_shares_staked` to `total_rewards_per_share`, sets
`last_accounted_block := b`, changes nothing else (the result is the explicit
record update below), and is then not a no-op. -/
theorem distribute_rewards_spec (s : GlobalState) (b : Nat) :
    (b ≤ s.last_accounted_block ∨ s.total_shares_staked = 0 →
      distribute_rewards s b = .ok s) ∧
    (¬ (b ≤ s.last_accounted_block ∨ s.total_shares_staked = 0) →
      distribute_rewards s b = .ok
        { s with
          last_accounted_block := b
          total_rewards_per_share := s.total_rewards_per_share +
            (b - s.last_accounted_block) * rewards_per_block * PRECISION /
              s.total_shares_staked } ∧
      distribute_rewards s b ≠ .ok s) := by
  constructor
  · exact distribute_rewards_noop
  · intro h
    push_neg at h
    obtain ⟨h1, h2⟩ := h
    refine ⟨distribute_rewards_advance h1 h2, ?_⟩
    rw [distribute_rewards_advance h1 h2]
    intro heq
    rw [Except.ok.injEq] at heq
    have hb := congrArg GlobalState.last_accounted_block heq
    dsimp only at hb
    omega

theorem distribute_rewards_spec_witness :
    distribute_rewards ⟨[], 0, 0, 5⟩ 3 = .ok ⟨[], 0, 0, 5⟩ ∧
    distribute_rewards ⟨[(1, ⟨2, 0, 0⟩)], 2, 0, 5⟩ 7 =
      .ok ⟨[(1, ⟨2, 0, 0⟩)], 2, 10 ^ 36, 7⟩ :=
  ⟨(distribute_rewards_spec ⟨[], 0, 0, 5⟩ 3).1 (by left; decide),
   ((distribute_rewards_spec ⟨[(1, ⟨2, 0, 0⟩)], 2, 0, 5⟩ 7).2 (by decide)).1⟩

/-- Claim C4: a transfer is processed exactly as the corresponding withdraw
event immediately followed by the corresponding deposit event at the same
block (identical `Except`-result, including the abort cases), and a
successful transfer leaves `total_shares_staked` unchanged. -/
theorem transfer_equivalence (s : GlobalState) (t : Transfer) :
    process_transfer s t = process_events s
      [ .withdrawal { address := t.from_addr, shares := t.shares,
                      block_number := t.block_number },
        .deposit { address := t.to_addr, shares := t.shares,
                   block_number := t.block_number } ] ∧
    (∀ s', process_transfer s t = .ok s' →
      s'.total_shares_staked = s.total_shares_staked) := by
  constructor
  · simp only [process_transfer, process_events, process_event]
    cases hw : process_withdraw s
        { address := t.from_addr, shares := t.shares, block_number := t.block_number } with
    | error e => rfl
    | ok s1 =>
      cases hd : process_deposit s1
          { address := t.to_addr, shares := t.shares, block_number := t.block_number } with
      | error e => simp [hd]
      | ok s2 => simp [hd]
  · intro s' h
    unfold process_transfer at h
    cases hw : process_withdraw s
        { address := t.from_addr, shares := t.shares, block_number := t.block_number } with
    | error e => simp [hw] at h
    | ok s1 =>
      simp only [hw] at h
      obtain ⟨hle, hw1⟩ := process_withdraw_total hw
      have hd1 := process_deposit_total h
      dsimp only at hle hw1 hd1
      omega

theorem transfer_equivalence_witness :
    process_transfer ⟨[(1, ⟨5, 0, 0⟩)], 5, 0, 0⟩ ⟨1, 2, 3, 0⟩ =
      .ok ⟨[(1, ⟨2, 0, 0⟩), (2, ⟨3, 0, 0⟩)], 5, 0, 0⟩ ∧
    (5 : Nat) = 5 :=
  ⟨rfl, (transfer_equivalence ⟨[(1, ⟨5, 0, 0⟩)], 5, 0, 0⟩ ⟨1, 2, 3, 0⟩).2
    ⟨[(1, ⟨2, 0, 0⟩), (2, ⟨3, 0, 0⟩)], 5, 0, 0⟩ rfl⟩

/-- Claim C5: applying any single event to any state (in particular any
reachable one) never decreases `total_rewards_per_share` or
`last_accounted_block`. -/
theorem accumulators_monotone (s : GlobalState) (e : Event) (s' : GlobalState)
    (h : process_event s e = .ok s') :
    s.total_rewards_per_share ≤ s'.total_rewards_per_share ∧
    s.last_accounted_block ≤ s'.last_accounted_block := by
  cases e with
  | deposit d => exact process_deposit_mono h
  | withdrawal w => exact process_withdraw_mono h
  | transfer t =>
    unfold process_event process_transfer at h
    cases hw : process_withdraw s
        { address := t.from_addr, shares := t.shares, block_number := t.block_number } with
    | error e => simp [hw] at h
    | ok s1 =>
      simp only [hw] at h
      have m1 := process_withdraw_mono hw
      have m2 := process_deposit_mono h
      exact ⟨le_trans m1.1 m2.1, le_trans m1.2 m2.2⟩

theorem accumulators_monotone_witness :
    (0 : Nat) ≤ 2 * 10 ^ 36 ∧ (0 : Nat) ≤ 10 :=
  accumulators_monotone ⟨[(1, ⟨5, 0, 0⟩)], 5, 0, 0⟩ (.deposit ⟨2, 3, 10⟩)
    ⟨[(1, ⟨5, 0, 0⟩), (2, ⟨3, 2 * 10 ^ 36, 0⟩)], 8, 2 * 10 ^ 36, 10⟩ (by rfl)

/-- Claim C10: an event only touches the records of the accounts it names
(the deposit / withdraw account, or the transfer's two ends); the record map
binding of every other account is unchanged by applying the event. -/
theorem event_frame (s : GlobalState) (e : Event) (s' : GlobalState) (a : Nat)
    (h : process_event s e = .ok s') (ha : a ∉ event_accounts e) :
    lookupRec a s'.user_records = lookupRec a s.user_records := by
  cases e with
  | deposit d =>
    simp only [event_accounts, List.mem_singleton] at ha
    exact process_deposit_frame h ha
  | withdrawal w =>
    simp only [event_accounts, List.mem_singleton] at ha
    exact process_withdraw_frame h ha
  | transfer t =>
    obtain ⟨h1, h2⟩ : ¬ a = t.from_addr ∧ ¬ a = t.to_addr := by
      simpa [event_accounts] using ha
    unfold process_event process_transfer at h
    cases hw : process_withdraw s
        { address := t.from_addr, shares := t.shares, block_number := t.block_number } with
    | error e => simp [hw] at h
    | ok s1 =>
      simp only [hw] at h
      rw [process_deposit_frame h h2, process_withdraw_frame hw h1]

theorem event_frame_witness :
    (1 : Nat) ∉ event_accounts (.deposit ⟨2, 3, 10⟩) ∧
    lookupRec 1 [(1, ⟨5, 0, 0⟩), (2, ⟨3, 2 * 10 ^ 36, 0⟩)] = lookupRec 1 [(1, ⟨5, 0, 0⟩)] :=
  ⟨by decide, event_frame ⟨[(1, ⟨5, 0, 0⟩)], 5, 0, 0⟩ (.deposit ⟨2, 3, 10⟩)
    ⟨[(1, ⟨5, 0, 0⟩), (2, ⟨3, 2 * 10 ^ 36, 0⟩)], 8, 2 * 10 ^ 36, 10⟩ 1 (by rfl) (by decide)⟩

/-- Claim C7: withdraw application fails (aborting the replay) exactly when
the account has no record or the event's shares exceed the record's
`shares_staked` or `total_shares_staked`; otherwise it succeeds with the
specified updates, and stake balances are decremented with explicit
non-underflow bounds — never wrapped.  The snapshot hypothesis is the
recorded-snapshot invariant that every reachable state satisfies. -/
theorem withdraw_error_iff (s : GlobalState) (w : Withdraw)
    (hInv : ∀ u, lookupRec w.address s.user_records = some u →
      u.rewards_per_share_snapshot ≤ s.total_rewards_per_share) :
    ((∃ err, process_withdraw s w = .error err) ↔
      lookupRec w.address s.user_records = none ∨
      ∃ u, lookupRec w.address s.user_records = some u ∧
        (u.shares_staked < w.shares ∨ s.total_shares_staked < w.shares)) ∧
    (∀ s', process_withdraw s w = .ok s' →
      ∃ s1 u, distribute_rewards s w.block_number = .ok s1 ∧
        lookupRec w.address s.user_records = some u ∧
        w.shares ≤ u.shares_staked ∧ w.shares ≤ s.total_shares_staked ∧
        s'.total_shares_staked = s.total_shares_staked - w.shares ∧
        lookupRec w.address s'.user_records = some
          ⟨u.shares_staked - w.shares, s1.total_rewards_per_share,
           u.rewards_accumulated +
             (s1.total_rewards_per_share - u.rewards_per_share_snapshot) *
               u.shares_staked⟩) := by
  obtain ⟨s1, hd, hrec, htot, htrps, hlast⟩ := distribute_rewards_shape s w.block_number
  rw [← hrec] at hInv ⊢
  rw [← htot]
  unfold process_withdraw
  simp only [hd]
  cases hl : lookupRec w.address s1.user_records with
  | none =>
    constructor
    · constructor
      · intro _
        exact Or.inl rfl
      · intro _
        exact ⟨.userShouldExist, rfl⟩
    · intro s' hok
      simp at hok
  | some u =>
    have hsnap : u.rewards_per_share_snapshot ≤ s1.total_rewards_per_share :=
      le_trans (hInv u hl) htrps
    simp only [usub_ok_of_le hsnap]
    by_cases h2 : w.shares ≤ u.shares_staked
    · simp only [usub_ok_of_le h2]
      by_cases h3 : w.shares ≤ s1.total_shares_staked
      · simp only [usub_ok_of_le h3]
        constructor
        · constructor
          · rintro ⟨err, herr⟩
            simp at herr
          · rintro (hnone | ⟨u', hu', hlt⟩)
            · simp at hnone
            · rw [Option.some_inj] at hu'
              subst hu'
              omega
        · intro s' hok
          rw [Except.ok.injEq] at hok
          refine ⟨s1, u, rfl, rfl, h2, h3, ?_, ?_⟩
          · rw [← hok]
          · rw [← hok]
            exact lookupRec_insertRec_self _ _ _
      · simp only [usub_error_of_lt (by omega : s1.total_shares_staked < w.shares)]
        constructor
        · constructor
          · intro _
            exact Or.inr ⟨u, rfl, Or.inr (by omega)⟩
          · intro _
            exact ⟨.underflow, rfl⟩
        · intro s' hok
          simp at hok
    · simp only [usub_error_of_lt (by omega : u.shares_staked < w.shares)]
      constructor
      · constructor
        · intro _
          exact Or.inr ⟨u, rfl, Or.inl (by omega)⟩
        · intro _
          exact ⟨.underflow, rfl⟩
      · intro s' hok
        simp at hok

theorem withdraw_error_iff_witness :
    ∃ s1 u, distribute_rewards ⟨[(1, ⟨5, 0, 0⟩)], 5, 0, 0⟩ 0 = .ok s1 ∧
      lookupRec 1 [(1, ⟨5, 0, 0⟩)] = some u ∧
      (3 : Nat) ≤ u.shares_staked ∧ (3 : Nat) ≤ 5 ∧
      (2 : Nat) = 5 - 3 ∧
      lookupRec 1 [(1, ⟨2, 0, 0⟩)] = some
        ⟨u.shares_staked - 3, s1.total_rewards_per_share,
         u.rewards_accumulated +
           (s1.total_rewards_per_share - u.rewards_per_share_snapshot) *
             u.shares_staked⟩ :=
  (withdraw_error_iff ⟨[(1, ⟨5, 0, 0⟩)], 5, 0, 0⟩ ⟨1, 3, 0⟩
      (by intro u hu; cases hu; decide)).2
    ⟨[(1, ⟨2, 0, 0⟩)], 2, 0, 0⟩ (by rfl)

/-- Claim C3 counterexample: the claimed formula scales the settled
`rewards_accumulated` by `PRECISION` before the final descale, but the code
adds `rewards_accumulated` (already held at accumulator scale) without
rescaling.  At a state whose record has `rewards_accumulated = 2·PRECISION`,
stake 1, zero snapshot buffer and no pending blocks, the code returns 2 while
the claimed formula yields `2·PRECISION`. -/
theorem preview_scaling_counterexample :
    preview_user_rewards ⟨[(1, ⟨1, 0, 2 * PRECISION⟩)], 1, 0, 5⟩ 1 5 = .ok 2 ∧
    ((0 + (5 - 5) * rewards_per_block * PRECISION / 1 - 0) * 1 + 2 * PRECISION * PRECISION) /
        PRECISION = 2 * PRECISION ∧
    (2 : Nat) ≠ 2 * PRECISION := by
  refine ⟨by rfl, by decide, by decide⟩

/-- Claim C3 (amended): with a record present, positive total stake, and
`evaluation_block ≥ last_accounted_block`, the preview returns
`((total_rewards_per_share + projected_delta − snapshot) · shares_staked +
rewards_accumulated) / PRECISION` — the settled component is added at
accumulator scale, not multiplied by `PRECISION`.  The snapshot hypothesis
is what every reachable record satisfies. -/
theorem preview_user_rewards_formula (s : GlobalState) (a b : Nat) (u : UserRecord)
    (hu : lookupRec a s.user_records = some u)
    (ht : s.total_shares_staked ≠ 0)
    (hb : s.last_accounted_block ≤ b)
    (hsnap : u.rewards_per_share_snapshot ≤ s.total_rewards_per_share +
      (b - s.last_accounted_block) * rewards_per_block * PRECISION /
        s.total_shares_staked) :
    preview_user_rewards s a b = .ok
      (((s.total_rewards_per_share +
          (b - s.last_accounted_block) * rewards_per_block * PRECISION /
            s.total_shares_staked
          - u.rewards_per_share_snapshot) * u.shares_staked +
        u.rewards_accumulated) / PRECISION) := by
  have hp : PRECISION ≠ 0 := by norm_num [PRECISION]
  unfold preview_user_rewards
  simp only [hu, ht, if_false, usub_ok_of_le hb, udiv_ok ht, usub_ok_of_le hsnap, udiv_ok hp]

theorem preview_user_rewards_formula_witness :
    lookupRec 1 [(1, ⟨1, 0, 0⟩)] = some ⟨1, 0, 0⟩ ∧ (1 : Nat) ≠ 0 ∧ (5 : Nat) ≤ 6 ∧
    preview_user_rewards ⟨[(1, ⟨1, 0, 0⟩)], 1, 0, 5⟩ 1 6 = .ok (10 ^ 18) :=
  ⟨rfl, by decide, by decide,
   preview_user_rewards_formula ⟨[(1, ⟨1, 0, 0⟩)], 1, 0, 5⟩ 1 6 ⟨1, 0, 0⟩ rfl
     (by decide) (by decide) (Nat.zero_le _)⟩

/-- Claim C8: the accumulator advance never aborts at all (its division is
guarded by the zero-stake no-op rule), the preview never raises the
division-by-zero abort for any state and block, and a record with zero
`shares_staked` is previewed without error, yielding its settled rewards
descaled by `PRECISION` — in both the zero- and nonzero-total-stake branches. -/
theorem no_division_by_zero (s : GlobalState) (a b : Nat) (u : UserRecord) :
    (∃ s1, distribute_rewards s b = .ok s1) ∧
    preview_user_rewards s a b ≠ .error .divisionByZero ∧
    (lookupRec a s.user_records = some u → u.shares_staked = 0 →
      u.rewards_per_share_snapshot ≤ s.total_rewards_per_share →
      s.last_accounted_block ≤ b →
      preview_user_rewards s a b = .ok (u.rewards_accumulated / PRECISION)) := by
  have hp : PRECISION ≠ 0 := by norm_num [PRECISION]
  obtain ⟨s1, hd, _⟩ := distribute_rewards_shape s b
  refine ⟨⟨s1, hd⟩, ?_, ?_⟩
  · unfold preview_user_rewards
    cases hl : lookupRec a s.user_records with
    | none => simp
    | some v =>
      dsimp only
      by_cases ht : s.total_shares_staked = 0
      · rw [if_pos ht]
        cases husub : usub s.total_rewards_per_share v.rewards_per_share_snapshot with
        | error e =>
          have he := usub_error_iff.mp husub
          simp [husub, he.2]
        | ok diff => simp [husub, udiv_ok hp]
      · rw [if_neg ht]
        cases he : usub b s.last_accounted_block with
        | error e =>
          have h1 := usub_error_iff.mp he
          simp [he, h1.2]
        | ok elapsed =>
          simp only [he, udiv_ok ht]
          cases hm : usub
              (s.total_rewards_per_share +
                elapsed * rewards_per_block * PRECISION / s.total_shares_staked)
              v.rewards_per_share_snapshot with
          | error e =>
            have h2 := usub_error_iff.mp hm
            simp [hm, h2.2]
          | ok diff => simp [hm, udiv_ok hp]
  · intro hl hz hsn hb
    unfold preview_user_rewards
    rw [hl]
    dsimp only
    by_cases ht : s.total_shares_staked = 0
    · rw [if_pos ht]
      simp only [usub_ok_of_le hsn, hz, Nat.mul_zero, Nat.zero_add, udiv_ok hp]
    · rw [if_neg ht]
      have hsn2 : u.rewards_per_share_snapshot ≤ s.total_rewards_per_share +
          (b - s.last_accounted_block) * rewards_per_block * PRECISION /
            s.total_shares_staked :=
        le_trans hsn (Nat.le_add_right _ _)
      simp only [usub_ok_of_le hb, udiv_ok ht, usub_ok_of_le hsn2, hz, Nat.mul_zero,
        Nat.zero_add, udiv_ok hp]

theorem no_division_by_zero_witness :
    lookupRec 1 [(1, ⟨0, 0, 3 * PRECISION⟩)] = some ⟨0, 0, 3 * PRECISION⟩ ∧
    preview_user_rewards ⟨[(1, ⟨0, 0, 3 * PRECISION⟩)], 0, 0, 5⟩ 1 7 =
      .ok (3 * PRECISION / PRECISION) :=
  ⟨rfl, (no_division_by_zero ⟨[(1, ⟨0, 0, 3 * PRECISION⟩)], 0, 0, 5⟩ 1 7
      ⟨0, 0, 3 * PRECISION⟩).2.2 rfl rfl (by decide) (by decide)⟩

/-- Claim C6 counterexample: an event whose block is strictly below the
current `last_accounted_block` does not abort the replay.  After the second
deposit the accumulator stands at deployment+10; the third deposit at
deployment+5 is then applied normally (account 3 gets a record, stale
snapshot and all) and `process_events` returns a success, not a failure. -/
theorem out_of_order_block_not_fatal :
    (process_events GlobalState.new
      [ .deposit ⟨1, 1, BLOCK_CONTRACT_DEPLOYED⟩,
        .deposit ⟨2, 1, BLOCK_CONTRACT_DEPLOYED + 10⟩ ]).map
      (fun s => s.last_accounted_block) = .ok (BLOCK_CONTRACT_DEPLOYED + 10) ∧
    BLOCK_CONTRACT_DEPLOYED + 5 < BLOCK_CONTRACT_DEPLOYED + 10 ∧
    process_events GlobalState.new
      [ .deposit ⟨1, 1, BLOCK_CONTRACT_DEPLOYED⟩,
        .deposit ⟨2, 1, BLOCK_CONTRACT_DEPLOYED + 10⟩,
        .deposit ⟨3, 1, BLOCK_CONTRACT_DEPLOYED + 5⟩ ] =
      .ok ⟨[(1, ⟨1, 0, 0⟩), (2, ⟨1, 10 ^ 37, 0⟩), (3, ⟨1, 10 ^ 37, 0⟩)],
           3, 10 ^ 37, BLOCK_CONTRACT_DEPLOYED + 10⟩ := by
  refine ⟨by rfl, by decide, by rfl⟩

/-- Claim C6 (amended): an event block strictly below `last_accounted_block`
is not detected as a violation: the accumulator advance treats it exactly
like an up-to-date block — a silent no-op — and the event is then applied
against the stale accumulator, with the replay continuing. -/
theorem stale_block_is_noop (s : GlobalState) (b : Nat)
    (h : b < s.last_accounted_block) :
    distribute_rewards s b = .ok s :=
  distribute_rewards_noop (Or.inl (Nat.le_of_lt h))

theorem stale_block_is_noop_witness :
    (4 : Nat) < 9 ∧ distribute_rewards ⟨[], 1, 0, 9⟩ 4 = .ok ⟨[], 1, 0, 9⟩ :=
  ⟨by decide, stale_block_is_noop ⟨[], 1, 0, 9⟩ 4 (by decide)⟩

/-! ## Sortedness and content of the ranked-rewards report -/

theorem insertDesc_perm (p : Nat × Nat) (l : List (Nat × Nat)) :
    List.Perm (insertDesc p l) (p :: l) := by
  induction l with
  | nil => exact List.Perm.refl _
  | cons q t ih =>
    unfold insertDesc
    by_cases h : q.2 ≤ p.2
    · rw [if_pos h]
    · rw [if_neg h]
      exact (ih.cons q).trans (List.Perm.swap p q t)

theorem mem_insertDesc {x p : Nat × Nat} {l : List (Nat × Nat)} :
    x ∈ insertDesc p l ↔ x = p ∨ x ∈ l :=
  ((insertDesc_perm p l).mem_iff).trans List.mem_cons

theorem pairwise_insertDesc {p : Nat × Nat} {l : List (Nat × Nat)}
    (h : List.Pairwise (fun a b : Nat × Nat => b.2 ≤ a.2) l) :
    List.Pairwise (fun a b : Nat × Nat => b.2 ≤ a.2) (insertDesc p l) := by
  induction l with
  | nil => simp [insertDesc]
  | cons q t ih =>
    rw [List.pairwise_cons] at h
    obtain ⟨hq, ht⟩ := h
    unfold insertDesc
    by_cases hc : q.2 ≤ p.2
    · rw [if_pos hc]
      refine List.Pairwise.cons ?_ (List.Pairwise.cons hq ht)
      intro x hx
      rcases List.mem_cons.mp hx with hx | hx
      · rw [hx]
        exact hc
      · exact le_trans (hq x hx) hc
    · rw [if_neg hc]
      refine List.Pairwise.cons ?_ (ih ht)
      intro x hx
      rcases mem_insertDesc.mp hx with hx | hx
      · rw [hx]
        exact Nat.le_of_lt (Nat.lt_of_not_le hc)
      · exact hq x hx

theorem sortDesc_perm (l : List (Nat × Nat)) : List.Perm (sortDesc l) l := by
  induction l with
  | nil => exact List.Perm.refl _
  | cons p t ih => exact (insertDesc_perm p (sortDesc t)).trans (ih.cons p)

theorem sortDesc_pairwise (l : List (Nat × Nat)) :
    List.Pairwise (fun a b : Nat × Nat => b.2 ≤ a.2) (sortDesc l) := by
  induction l with
  | nil => simp [sortDesc]
  | cons p t ih => exact pairwise_insertDesc ih

/-- Claim C9 (amended): a successful `get_user_rewards` returns exactly the
nonzero per-account previews (a permutation of the filtered preview list),
sorted by reward descending; ties keep the record map's iteration order (the
sort is stable), so the output is a function of that iteration order — it is
NOT invariant under reordering the map's internal bindings (see the
counterexample). -/
theorem ranked_rewards_sorted (s : GlobalState) (b : Nat) (r : List (Nat × Nat))
    (h : get_user_rewards s b = .ok r) :
    ∃ l, preview_all s b s.user_records = .ok l ∧
      List.Perm r (l.filter (fun p => p.2 ≠ 0)) ∧
      List.Pairwise (fun p q : Nat × Nat => q.2 ≤ p.2) r ∧
      ∀ p ∈ r, p.2 ≠ 0 := by
  unfold get_user_rewards at h
  cases hp : preview_all s b s.user_records with
  | error e => simp [hp] at h
  | ok l =>
    simp only [hp, Except.ok.injEq] at h
    subst h
    refine ⟨l, rfl, sortDesc_perm _, sortDesc_pairwise _, ?_⟩
    intro p hmem
    have hf : p ∈ l.filter (fun q => q.2 ≠ 0) :=
      (sortDesc_perm (l.filter (fun q => q.2 ≠ 0))).subset hmem
    have := (List.mem_filter.mp hf).2
    exact of_decide_eq_true this

theorem ranked_rewards_sorted_witness :
    ∃ l, preview_all tieStateA 1 tieStateA.user_records = .ok l ∧
      List.Perm [(1, 5 * 10 ^ 17), (2, 5 * 10 ^ 17)] (l.filter (fun p => p.2 ≠ 0)) ∧
      List.Pairwise (fun p q : Nat × Nat => q.2 ≤ p.2)
        [(1, 5 * 10 ^ 17), (2, 5 * 10 ^ 17)] ∧
      ∀ p ∈ [((1 : Nat), 5 * 10 ^ 17), ((2 : Nat), 5 * 10 ^ 17)], p.2 ≠ (0 : Nat) :=
  ranked_rewards_sorted tieStateA 1 [(1, 5 * 10 ^ 17), (2, 5 * 10 ^ 17)] (by rfl)

/-- Claim C9 counterexample: determinism across equal engine states fails for
tie order.  `tieStateA` and `tieStateB` are the same engine state — the same
record bindings (a permutation, agreeing on every lookup), the same totals,
accumulator and block — yet `get_user_rewards` returns the two equal-reward
accounts in different orders, because the stable sort inherits the map's
internal iteration order and no secondary key is applied. -/
theorem ranked_rewards_tie_order_counterexample :
    List.Perm tieStateA.user_records tieStateB.user_records ∧
    lookupRec 1 tieStateA.user_records = lookupRec 1 tieStateB.user_records ∧
    lookupRec 2 tieStateA.user_records = lookupRec 2 tieStateB.user_records ∧
    tieStateA.total_shares_staked = tieStateB.total_shares_staked ∧
    tieStateA.total_rewards_per_share = tieStateB.total_rewards_per_share ∧
    tieStateA.last_accounted_block = tieStateB.last_accounted_block ∧
    get_user_rewards tieStateA 1 = .ok [(1, 5 * 10 ^ 17), (2, 5 * 10 ^ 17)] ∧
    get_user_rewards tieStateB 1 = .ok [(2, 5 * 10 ^ 17), (1, 5 * 10 ^ 17)] ∧
    [((1 : Nat), (5 * 10 ^ 17 : Nat)), (2, 5 * 10 ^ 17)] ≠
      [(2, 5 * 10 ^ 17), (1, 5 * 10 ^ 17)] := by
  refine ⟨by decide, by rfl, by rfl, by rfl, by rfl, by rfl, by rfl, by rfl, by decide⟩

/-! ## The snapshot invariant holds in every replay-reachable state -/

theorem snapshotInv_deposit {s : GlobalState} {d : Deposit} {s' : GlobalState}
    (h : process_deposit s d = .ok s') (hs : snapshotInv s) : snapshotInv s' := by
  obtain ⟨s1, _, hrec, _, htrps, _, hcase⟩ := process_deposit_ok h
  have key : ∀ v : UserRecord,
      v.rewards_per_share_snapshot = s1.total_rewards_per_share →
      s' = { s1 with
             user_records := insertRec d.address v s1.user_records
             total_shares_staked := s1.total_shares_staked + d.shares } →
      snapshotInv s' := by
    intro v hv hs'
    subst hs'
    intro a u hu
    dsimp only at hu ⊢
    by_cases ha : a = d.address
    · subst ha
      rw [lookupRec_insertRec_self] at hu
      cases hu
      exact le_of_eq hv
    · rw [lookupRec_insertRec_ne ha, hrec] at hu
      exact le_trans (hs a u hu) htrps
  cases hcase with
  | inl hc => exact key _ rfl hc.2
  | inr hc =>
    obtain ⟨u, _, _, hs'⟩ := hc
    exact key _ rfl hs'

theorem snapshotInv_withdraw {s : GlobalState} {w : Withdraw} {s' : GlobalState}
    (h : process_withdraw s w = .ok s') (hs : snapshotInv s) : snapshotInv s' := by
  obtain ⟨s1, u, _, hrec, _, htrps, _, _, _, _, _, hs'⟩ := process_withdraw_ok h
  subst hs'
  intro a v hv
  dsimp only at hv ⊢
  by_cases ha : a = w.address
  · subst ha
    rw [lookupRec_insertRec_self] at hv
    cases hv
    exact le_refl _
  · rw [lookupRec_insertRec_ne ha, hrec] at hv
    exact le_trans (hs a v hv) htrps

theorem snapshotInv_event {s : GlobalState} {e : Event} {s' : GlobalState}
    (h : process_event s e = .ok s') (hs : snapshotInv s) : snapshotInv s' := by
  cases e with
  | deposit d => exact snapshotInv_deposit h hs
  | withdrawal w => exact snapshotInv_withdraw h hs
  | transfer t =>
    unfold process_event process_transfer at h
    cases hw : process_withdraw s
        { address := t.from_addr, shares := t.shares, block_number := t.block_number } with
    | error e => simp [hw] at h
    | ok s1 =>
      simp only [hw] at h
      exact snapshotInv_deposit h (snapshotInv_withdraw hw hs)

theorem snapshotInv_replay {evts : List Event} {s s' : GlobalState}
    (h : process_events s evts = .ok s') (hs : snapshotInv s) : snapshotInv s' := by
  induction evts generalizing s with
  | nil =>
    simp only [process_events, Except.ok.injEq] at h
    rw [← h]
    exact hs
  | cons e rest ih =>
    unfold process_events at h
    cases he : process_event s e with
    | error err => simp [he] at h
    | ok s1 =>
      simp only [he] at h
      exact ih h (snapshotInv_event he hs)

theorem snapshotInv_new : snapshotInv GlobalState.new := by
  intro a u hu
  cases hu
